import Mathlib

/-!
# Verification of the engagement reconciliation engine (`fg-engagements`)

A shallow embedding of the change-detection / reconciliation logic of
`src/scrape_engagements.js` (Node.js), together with proofs about it:

* key normalisation (`norm`, `keyify`, lines 37–44),
* the persisted seen-store and its save-time cap (`saveSeen`, lines 146–150),
* in-batch deduplication (lines 968–973),
* the new/changed/unchanged classification loop (lines 975–994),
* declared-participant ("confirmed") surfacing (lines 996–1003),
* the scraping layer's row-validity filter (lines 924–928),
* Discord message chunking (`chunkLines`, lines 937–953).

JavaScript strings are modelled as Lean `String`/`List Char` (code points;
the data handled by the scripts is French text inside the Basic Latin and
Latin-1 blocks, where code points and UTF-16 units agree), JavaScript
numbers (`Date.now()` timestamps, lengths) as `Nat`, and the `seen`
`Map` as its entry list in JavaScript `Map` iteration order: insertion
order, where `set` on an existing key overwrites the value in place
without moving the entry.
-/

namespace FGEng

/-! ## Character-level primitives used by `norm` and `keyify` -/

/-- The characters matched by the JavaScript regex class `\s`
(ECMAScript WhiteSpace and LineTerminator productions). -/
def jsWS (c : Char) : Bool :=
  c = ' ' || c = '\t' || c = '\n' || c = '\x0b' || c = '\x0c' || c = '\r' ||
  c.toNat = 0xA0 || c.toNat = 0x1680 ||
  (0x2000 ≤ c.toNat && c.toNat ≤ 0x200A) ||
  c.toNat = 0x2028 || c.toNat = 0x2029 || c.toNat = 0x202F ||
  c.toNat = 0x205F || c.toNat = 0x3000 || c.toNat = 0xFEFF

/-- `.replace(/\s+/g, ' ')`: every maximal run of whitespace becomes one
space.  The Boolean argument records whether the previously consumed
character was whitespace, i.e. whether we are inside a run whose single
space has already been emitted. -/
def collapseAux : Bool → List Char → List Char
  | _, [] => []
  | prevWS, c :: rest =>
    if jsWS c then
      if prevWS then collapseAux true rest else ' ' :: collapseAux true rest
    else c :: collapseAux false rest

/-- `.replace(/\s+/g, ' ')` on a whole string (no run has been started). -/
def collapseWS (l : List Char) : List Char := collapseAux false l

/-- The replacement `.replace(/[']/g, "'")` from `norm` (line 40).  The
character class contains exactly the ASCII apostrophe U+0027 (checked
against the raw bytes of the file: `5b 27 5d`), and the replacement
string is the ASCII apostrophe again, so the replacement maps `'` to
`'` and every other character to itself. -/
def aposChar (c : Char) : Char := if c = '\'' then '\'' else c

/-- `.trim()`, left half: drop leading JavaScript whitespace. -/
def trimLeft (l : List Char) : List Char := l.dropWhile jsWS

/-- `.trim()`, right half: drop trailing JavaScript whitespace. -/
def trimRight : List Char → List Char
  | [] => []
  | c :: l =>
    match trimRight l with
    | [] => if jsWS c then [] else [c]
    | x => c :: x

/-- `.trim()`: drop whitespace from both ends. -/
def trimBoth (l : List Char) : List Char := trimRight (trimLeft l)

/-- `norm` (lines 37–41): collapse whitespace runs, apply the (identity)
apostrophe replacement, then trim — at the `List Char` level. -/
def normL (l : List Char) : List Char := trimBoth ((collapseWS l).map aposChar)

/-- `norm` (lines 37–41) on `String`s. -/
def norm (s : String) : String := ⟨normL s.data⟩

/-- JavaScript `String.prototype.toLowerCase`, one character: the Unicode
simple lowercase mapping, modelled on the Basic Latin block (`A`–`Z`) and
the Latin-1 Supplement block (`À`–`Þ` except `×`), which cover the French
text this repository scrapes; code points outside those ranges are
returned unchanged. -/
def jsLowerChar (c : Char) : Char :=
  if 'A' ≤ c && c ≤ 'Z' then Char.ofNat (c.toNat + 32)
  else if 0xC0 ≤ c.toNat && c.toNat ≤ 0xDE && c.toNat ≠ 0xD7 then
    Char.ofNat (c.toNat + 32)
  else c

/-- `.toLowerCase()` on a whole string. -/
def jsToLower (s : String) : String := ⟨s.data.map jsLowerChar⟩

/-- The separator of `[..].join(' | ')` (line 44). -/
def sepBar : List Char := [' ', '|', ' ']

/-- `Array.prototype.join(' | ')` at the character level. -/
def joinBar : List (List Char) → List Char
  | [] => []
  | [x] => x
  | x :: xs => x ++ sepBar ++ joinBar xs

/-! ## Records and the seen-store -/

/-- One scraped engagement row (`rec`, lines 909–922). -/
structure Rec where
  horse : String
  horseUrl : String
  statut : String
  date : String
  track : String
  race : String
  raceUrl : String
  cat : String
  purse : String
  disc : String
  dist : String
  owner : String
deriving DecidableEq

/-- `keyify` (lines 43–44): normalise the joined identity fields and
lowercase the result. -/
def keyify (r : Rec) : String :=
  jsToLower (norm ⟨joinBar [r.horse.data, r.date.data, r.track.data,
                            r.race.data, r.dist.data]⟩)

/-- One value of the `seen` map (line 984):
`{ statut, last: Date.now(), horseUrl, raceUrl }`. -/
structure SeenEntry where
  statut : String
  last : Nat
  horseUrl : String
  raceUrl : String
deriving DecidableEq

/-- The `seen` map as its entry list in JavaScript `Map` iteration order. -/
abbrev Store := List (String × SeenEntry)

/-- `Map.prototype.get`. -/
def mapGet (m : Store) (k : String) : Option SeenEntry :=
  (m.find? (fun p => p.1 == k)).map (·.2)

/-- `Map.prototype.set`: if the key is present, the value is overwritten in
place and the entry keeps its position; otherwise the entry is appended. -/
def mapSet (m : Store) (k : String) (v : SeenEntry) : Store :=
  if m.any (fun p => p.1 == k) then
    m.map (fun p => if p.1 == k then (k, v) else p)
  else m ++ [(k, v)]

/-- The save-time entry cap of `saveSeen` (line 148). -/
def seenCap : Nat := 3000

/-- `saveSeen` (lines 146–150): `Array.from(map.entries()).slice(-3000)` —
the last `seenCap` entries of the map's iteration order are written. -/
def saveSeen (m : Store) : Store := m.drop (m.length - seenCap)

/-! ## The reconciliation pass (main IIFE, lines 955–1003) -/

/-- In-batch deduplication (lines 968–973): walk the batch keeping the set
of keys already encountered (`runSeen`), and keep a row only if its key is
fresh. -/
def dedupAux (runSeen : List String) : List Rec → List Rec
  | [] => []
  | r :: rest =>
    let k := keyify r
    if runSeen.contains k then dedupAux runSeen rest
    else r :: dedupAux (k :: runSeen) rest

/-- The deduplicated batch (`unique`, lines 968–973). -/
def dedupBatch (batch : List Rec) : List Rec := dedupAux [] batch

/-- Specification-side deduplication, stated the way §4.1 step 1 of the
spec words it: keep the first occurrence of each key and drop every later
record with the same key. -/
def specDedup : List Rec → List Rec
  | [] => []
  | r :: rest => r :: specDedup (rest.filter (fun x => keyify x != keyify r))
termination_by l => l.length
decreasing_by
  simp only [List.length_cons]
  exact Nat.lt_succ_of_le (List.length_filter_le _ _)

/-- The mutable state of the classification loop (lines 975–994):
`newRows`, `changedRows` (each changed row carries `oldStatut`) and the
`seen` map being updated in place. -/
structure ClassifyState where
  newRows : List Rec
  changedRows : List (Rec × String)
  seen : Store
deriving DecidableEq

/-- One iteration of the classification loop (lines 978–994). -/
def classifyStep (force : Bool) (now : Nat) (st : ClassifyState) (r : Rec) :
    ClassifyState :=
  let k := keyify r
  let fresh : SeenEntry := ⟨r.statut, now, r.horseUrl, r.raceUrl⟩
  if force then
    { st with newRows := st.newRows ++ [r], seen := mapSet st.seen k fresh }
  else
    match mapGet st.seen k with
    | none =>
      { st with newRows := st.newRows ++ [r], seen := mapSet st.seen k fresh }
    | some prev =>
      if prev.statut ≠ r.statut then
        { st with changedRows := st.changedRows ++ [(r, prev.statut)],
                  seen := mapSet st.seen k fresh }
      else
        { st with
            seen := mapSet st.seen k ⟨prev.statut, now, r.horseUrl, r.raceUrl⟩ }

/-- The whole classification loop over the deduplicated batch. -/
def classifyRun (force : Bool) (now : Nat) (unique : List Rec)
    (store : Store) : ClassifyState :=
  unique.foldl (classifyStep force now) ⟨[], [], store⟩

/-- `/^DP-P/i.test s` (lines 998–1005): case-insensitive test that the
status starts with `DP-P`. -/
def isDPP (s : String) : Bool :=
  (s.data.map jsLowerChar).take 4 == ['d', 'p', '-', 'p']

/-- The outputs of one reconciliation pass. -/
structure ReconcileResult where
  newRows : List Rec
  changedRows : List (Rec × String)
  store : Store
  declaredParticipants : List Rec
deriving DecidableEq

/-- The reconciliation pass of the main IIFE (lines 968–1003): deduplicate
the batch, run the classification loop against the store, and compute the
`declaredParticipants` list — on the first run of the day every `DP-P` row
of the deduplicated batch, otherwise the `DP-P` members of `newRows`
followed by the `DP-P` members of `changedRows`. -/
def reconcile (force isFirstRunToday : Bool) (now : Nat)
    (batch : List Rec) (store : Store) : ReconcileResult :=
  let unique := dedupBatch batch
  let st := classifyRun force now unique store
  let dpp :=
    if isFirstRunToday then
      unique.filter (fun r => isDPP r.statut)
    else
      st.newRows.filter (fun r => isDPP r.statut) ++
        (st.changedRows.filter (fun p => isDPP p.1.statut)).map Prod.fst
  ⟨st.newRows, st.changedRows, st.seen, dpp⟩

/-! ## The scraping layer's row filter (lines 924–929) -/

/-- The row-validity test of `scrape` (line 924):
`rec.horse && rec.date && (rec.race || rec.track)` — JavaScript truthiness
of a string is non-emptiness. -/
def rowValid (r : Rec) : Bool :=
  r.horse != "" && r.date != "" && (r.race != "" || r.track != "")

/-- The accumulation of `out` and `skippedCount` over the scraped rows
(lines 875–929): valid rows are pushed, invalid rows are counted and
dropped. -/
def scrapeSift (rows : List Rec) : List Rec × Nat :=
  rows.foldl
    (fun acc r => if rowValid r then (acc.1 ++ [r], acc.2) else (acc.1, acc.2 + 1))
    ([], 0)

/-! ## Discord message chunking (`chunkLines`, lines 937–953) -/

/-- The loop state of `chunkLines`: flushed chunks (kept as their line
buffers), the current buffer, and the running length accumulator `len`. -/
structure ChunkState where
  chunks : List (List String)
  buf : List String
  len : Nat
deriving DecidableEq

/-- One iteration of the `chunkLines` loop (lines 941–950). -/
def chunkStep (header : String) (maxLen : Nat) (st : ChunkState)
    (ln : String) : ChunkState :=
  if maxLen < st.len + ln.length + 1 then
    ⟨st.chunks ++ [st.buf], [ln], header.length + 1 + ln.length + 1⟩
  else
    ⟨st.chunks, st.buf ++ [ln], st.len + ln.length + 1⟩

/-- The chunk line-buffers produced by `chunkLines`: the flushed chunks
plus, if non-empty, the final buffer (line 951). -/
def chunkBufs (header : String) (lines : List String) (maxLen : Nat) :
    List (List String) :=
  let st := lines.foldl (chunkStep header maxLen) ⟨[], [], header.length + 1⟩
  if st.buf.isEmpty then st.chunks else st.chunks ++ [st.buf]

/-- `Array.prototype.join('\n')` at the character level. -/
def joinNL : List (List Char) → List Char
  | [] => []
  | [x] => x
  | x :: xs => x ++ '\n' :: joinNL xs

/-- `header + '\n' + buf.join('\n')` (lines 943 and 951). -/
def renderChunk (header : String) (buf : List String) : String :=
  ⟨header.data ++ '\n' :: joinNL (buf.map String.data)⟩

/-- `chunkLines` (lines 937–953). -/
def chunkLines (header : String) (lines : List String) (maxLen : Nat) :
    List String :=
  (chunkBufs header lines maxLen).map (renderChunk header)

/-! ## Reference (specification-side) classification

The spec's §4.1 algorithm, worded as stated there: classify every
deduplicated record by looking its key up in the *incoming* store. -/

/-- §4.1 step 2, "not present → classify new": the deduplicated records
whose keys the incoming store does not contain. -/
def refNew (store : Store) (u : List Rec) : List Rec :=
  u.filter (fun r => (mapGet store (keyify r)).isNone)

/-- §4.1 step 2, "present, status differs → classify changed, retaining the
old status value alongside the record", for a single record. -/
def refChangedFn (store : Store) (r : Rec) : Option (Rec × String) :=
  match mapGet store (keyify r) with
  | none => none
  | some p => if p.statut ≠ r.statut then some (r, p.statut) else none

/-- §4.1 step 2 changed list over the deduplicated batch. -/
def refChanged (store : Store) (u : List Rec) : List (Rec × String) :=
  u.filterMap (refChangedFn store)

/-- The store value the classification loop writes for a record whose
previous entry was `prev` (lines 982–993, force off). -/
def entryFor (now : Nat) (prev : Option SeenEntry) (r : Rec) : SeenEntry :=
  match prev with
  | none => ⟨r.statut, now, r.horseUrl, r.raceUrl⟩
  | some p =>
    if p.statut ≠ r.statut then ⟨r.statut, now, r.horseUrl, r.raceUrl⟩
    else ⟨p.statut, now, r.horseUrl, r.raceUrl⟩

/-! ## Lemmas on the store operations -/

theorem mapGet_cons (p : String × SeenEntry) (m : Store) (k : String) :
    mapGet (p :: m) k = if p.1 == k then some p.2 else mapGet m k := by
  by_cases h : p.1 == k <;> simp [mapGet, List.find?_cons, h]

theorem mapGet_update_get (m : Store) (k k' : String) (v : SeenEntry) :
    mapGet (m.map (fun p => if p.1 == k then (k, v) else p)) k' =
      if (m.any (fun p => p.1 == k)) ∧ k' = k then some v
      else mapGet m k' := by
  induction m with
  | nil => simp
  | cons p m ih =>
    simp only [List.map_cons, List.any_cons, mapGet_cons, Bool.or_eq_true,
      beq_iff_eq] at ih ⊢
    by_cases hp : p.1 = k
    · by_cases hk : k' = k
      · subst hk; subst hp
        simp [ih]
      · have hkk : ¬ ((k, v).1 = k') := fun hc => hk hc.symm
        have hpk' : ¬ p.1 = k' := fun hc => hk (hc.symm.trans hp)
        rw [if_pos hp, if_neg hkk, ih]
        simp [hk, hpk']
    · rw [if_neg hp]
      by_cases hpk : p.1 = k'
      · have hk : ¬ k' = k := fun hc => hp (hpk.trans hc)
        simp [hpk, hk]
      · rw [ih, if_neg hpk, if_neg hpk]
        exact (if_congr (by tauto) rfl rfl).symm

theorem mapGet_append_get (m : Store) (k k' : String) (v : SeenEntry) :
    mapGet (m ++ [(k, v)]) k' =
      if (mapGet m k').isSome then mapGet m k'
      else if k' = k then some v else none := by
  induction m with
  | nil =>
    by_cases hk : k' = k
    · subst hk; simp [mapGet_cons, mapGet]
    · have : ¬ (k = k') := fun hc => hk hc.symm
      simp [mapGet_cons, mapGet, this, hk]
  | cons p m ih =>
    simp only [List.cons_append, mapGet_cons, beq_iff_eq]
    by_cases hpk : p.1 = k'
    · simp [hpk]
    · simp [hpk, ih]

theorem mapGet_any_isSome (m : Store) (k : String) :
    m.any (fun p => p.1 == k) = (mapGet m k).isSome := by
  induction m with
  | nil => simp [mapGet]
  | cons p m ih =>
    by_cases hpk : p.1 = k
    · simp [mapGet_cons, hpk]
    · simp [mapGet_cons, hpk, ih]

theorem mapGet_set_self (m : Store) (k : String) (v : SeenEntry) :
    mapGet (mapSet m k v) k = some v := by
  unfold mapSet
  by_cases h : m.any (fun p => p.1 == k)
  · rw [if_pos h, mapGet_update_get, if_pos ⟨h, rfl⟩]
  · rw [if_neg h, mapGet_append_get]
    have hfalse : m.any (fun p => p.1 == k) = false := by
      cases hb : m.any (fun p => p.1 == k)
      · rfl
      · exact absurd hb h
    have hnone : (mapGet m k).isSome = false := by
      rw [← mapGet_any_isSome]; exact hfalse
    simp [hnone]

theorem mapGet_set_ne (m : Store) (k k' : String) (v : SeenEntry)
    (h : k' ≠ k) : mapGet (mapSet m k v) k' = mapGet m k' := by
  unfold mapSet
  by_cases hm : m.any (fun p => p.1 == k)
  · rw [if_pos hm, mapGet_update_get, if_neg (fun hc => h hc.2)]
  · rw [if_neg hm, mapGet_append_get]
    by_cases hs : (mapGet m k').isSome
    · rw [if_pos hs]
    · rw [if_neg hs, if_neg h]
      cases ho : mapGet m k' with
      | none => rfl
      | some e => rw [ho] at hs; simp at hs

theorem mapSet_keys_of_mem (m : Store) (k : String) (v : SeenEntry)
    (h : m.any (fun p => p.1 == k)) :
    (mapSet m k v).map Prod.fst = m.map Prod.fst := by
  unfold mapSet
  rw [if_pos h]
  clear h
  induction m with
  | nil => rfl
  | cons p m ih =>
    by_cases hp : p.1 = k
    · have hb : (p.1 == k) = true := by simpa [beq_iff_eq] using hp
      simp only [List.map_cons, if_pos hb]
      rw [ih]
      simp [hp]
    · have hb : ¬ ((p.1 == k) = true) := by simpa [beq_iff_eq] using hp
      simp only [List.map_cons, if_neg hb]
      rw [ih]

/-! ## Lemmas on in-batch deduplication -/

theorem dedupAux_cons_mem {acc : List String} {r : Rec} (rest : List Rec)
    (h : acc.contains (keyify r) = true) :
    dedupAux acc (r :: rest) = dedupAux acc rest := by
  have hm : keyify r ∈ acc := by simpa using h
  simp [dedupAux, hm]

theorem dedupAux_cons_free {acc : List String} {r : Rec} (rest : List Rec)
    (h : acc.contains (keyify r) = false) :
    dedupAux acc (r :: rest) = r :: dedupAux (keyify r :: acc) rest := by
  have hm : keyify r ∉ acc := by simpa using h
  simp [dedupAux, hm]

theorem dedupAux_nodup_and_free :
    ∀ (batch : List Rec) (acc : List String),
      ((dedupAux acc batch).map keyify).Nodup ∧
        ∀ r ∈ dedupAux acc batch, acc.contains (keyify r) = false := by
  intro batch
  induction batch with
  | nil => intro acc; simp [dedupAux]
  | cons r rest ih =>
    intro acc
    cases hc : acc.contains (keyify r) with
    | true =>
      rw [dedupAux_cons_mem rest hc]
      exact ih acc
    | false =>
      rw [dedupAux_cons_free rest hc]
      obtain ⟨ihn, ihf⟩ := ih (keyify r :: acc)
      refine ⟨?_, ?_⟩
      · simp only [List.map_cons, List.nodup_cons]
        refine ⟨?_, ihn⟩
        intro hmem
        rcases List.mem_map.mp hmem with ⟨r', hr', hkr'⟩
        have hfree := ihf r' hr'
        rw [List.contains_cons] at hfree
        simp [hkr'] at hfree
      · intro r' hr'
        rcases List.mem_cons.mp hr' with rfl | hr''
        · exact hc
        · have hfree := ihf r' hr''
          rw [List.contains_cons] at hfree
          exact (Bool.or_eq_false_iff.mp hfree).2

theorem dedupBatch_keys_nodup (batch : List Rec) :
    ((dedupBatch batch).map keyify).Nodup :=
  (dedupAux_nodup_and_free batch []).1

theorem specDedup_cons (r : Rec) (rest : List Rec) :
    specDedup (r :: rest) =
      r :: specDedup (rest.filter (fun x => keyify x != keyify r)) := by
  rw [specDedup]

theorem dedupAux_eq_specDedup :
    ∀ (batch : List Rec) (acc : List String),
      dedupAux acc batch =
        specDedup (batch.filter (fun r => !acc.contains (keyify r))) := by
  intro batch
  induction batch with
  | nil => intro acc; simp [dedupAux, specDedup]
  | cons r rest ih =>
    intro acc
    cases hc : acc.contains (keyify r) with
    | true =>
      rw [dedupAux_cons_mem rest hc, List.filter_cons, hc, if_neg (by simp)]
      exact ih acc
    | false =>
      rw [dedupAux_cons_free rest hc, List.filter_cons, hc, if_pos (by simp)]
      rw [ih (keyify r :: acc), specDedup_cons]
      congr 1
      rw [List.filter_filter]
      congr 1
      apply List.filter_congr
      intro x _
      by_cases hx : keyify x = keyify r <;>
        by_cases hy : keyify x ∈ acc <;>
          simp [List.contains_cons, bne, hx, hy]

theorem dedupBatch_eq_specDedup (batch : List Rec) :
    dedupBatch batch = specDedup batch := by
  rw [dedupBatch, dedupAux_eq_specDedup]
  congr 1
  apply List.filter_eq_self.mpr
  intro r _
  rfl

/-- Every key of the batch survives into the deduplicated batch on some
(first-occurrence) representative. -/
theorem dedup_key_covered :
    ∀ (batch : List Rec) (acc : List String) (r : Rec), r ∈ batch →
      acc.contains (keyify r) = true ∨
        ∃ r' ∈ dedupAux acc batch, keyify r' = keyify r := by
  intro batch
  induction batch with
  | nil => intro acc r hr; cases hr
  | cons x rest ih =>
    intro acc r hr
    cases hc : acc.contains (keyify x) with
    | true =>
      rw [dedupAux_cons_mem rest hc]
      rcases List.mem_cons.mp hr with rfl | hr'
      · exact Or.inl hc
      · exact ih acc r hr'
    | false =>
      rw [dedupAux_cons_free rest hc]
      rcases List.mem_cons.mp hr with rfl | hr'
      · exact Or.inr ⟨r, List.mem_cons_self _ _, rfl⟩
      · rcases ih (keyify x :: acc) r hr' with h | ⟨r', hrr, hk⟩
        · rw [List.contains_cons] at h
          rcases (by simpa using h :
            (keyify r == keyify x) = true ∨ acc.contains (keyify r) = true)
            with h1 | h2
          · exact Or.inr ⟨x, List.mem_cons_self _ _, (beq_iff_eq.mp h1).symm⟩
          · exact Or.inl h2
        · exact Or.inr ⟨r', List.mem_cons_of_mem _ hrr, hk⟩

/-! ## Characterisation of the classification loop -/

theorem classifyStep_false (now : Nat) (st : ClassifyState) (r : Rec) :
    classifyStep false now st r =
      ⟨st.newRows ++ (if (mapGet st.seen (keyify r)).isNone then [r] else []),
       st.changedRows ++
         (match mapGet st.seen (keyify r) with
          | none => []
          | some p => if p.statut ≠ r.statut then [(r, p.statut)] else []),
       mapSet st.seen (keyify r) (entryFor now (mapGet st.seen (keyify r)) r)⟩ := by
  unfold classifyStep entryFor
  cases h : mapGet st.seen (keyify r) with
  | none => simp [h]
  | some p =>
    by_cases hs : p.statut ≠ r.statut
    · simp [h, hs]
    · simp [h, hs]

theorem classifyStep_true (now : Nat) (st : ClassifyState) (r : Rec) :
    classifyStep true now st r =
      ⟨st.newRows ++ [r], st.changedRows,
       mapSet st.seen (keyify r) ⟨r.statut, now, r.horseUrl, r.raceUrl⟩⟩ := rfl

theorem find?_key_self (u : List Rec) (hnd : (u.map keyify).Nodup) :
    ∀ r ∈ u, u.find? (fun x => keyify x == keyify r) = some r := by
  induction u with
  | nil => intro r hr; cases hr
  | cons x u ihu =>
    intro r hr
    obtain ⟨hx, hnd'⟩ :
        (∀ y ∈ u, ¬ keyify y = keyify x) ∧ (u.map keyify).Nodup := by
      simpa using hnd
    rcases List.mem_cons.mp hr with rfl | hr'
    · rw [List.find?_cons_of_pos _ (by simp)]
    · by_cases he : keyify x = keyify r
      · exact absurd he.symm (hx r hr')
      · rw [List.find?_cons_of_neg _ (by simpa using he)]
        exact ihu hnd' r hr'

theorem classify_fold_false (now : Nat) :
    ∀ (u : List Rec) (store : Store) (news : List Rec)
      (chgs : List (Rec × String)),
      (u.map keyify).Nodup →
      (u.foldl (classifyStep false now) ⟨news, chgs, store⟩).newRows =
          news ++ refNew store u ∧
        (u.foldl (classifyStep false now) ⟨news, chgs, store⟩).changedRows =
          chgs ++ refChanged store u ∧
        ∀ k, mapGet (u.foldl (classifyStep false now) ⟨news, chgs, store⟩).seen k =
          (match u.find? (fun x => keyify x == k) with
           | some x => some (entryFor now (mapGet store k) x)
           | none => mapGet store k) := by
  intro u
  induction u with
  | nil =>
    intro store news chgs _
    refine ⟨by simp [refNew], by simp [refChanged], ?_⟩
    intro k
    simp
  | cons r u ihu =>
    intro store news chgs hnd
    obtain ⟨hfree, hnd'⟩ :
        (∀ y ∈ u, ¬ keyify y = keyify r) ∧ (u.map keyify).Nodup := by
      simpa using hnd
    have hkr : keyify r ∉ u.map keyify := by
      intro hm
      rcases List.mem_map.mp hm with ⟨y, hy, he⟩
      exact hfree y hy he
    rw [List.foldl_cons, classifyStep_false]
    have hlook : ∀ x ∈ u,
        mapGet (mapSet store (keyify r)
          (entryFor now (mapGet store (keyify r)) r)) (keyify x) =
        mapGet store (keyify x) := by
      intro x hx
      apply mapGet_set_ne
      intro hceq
      exact hkr (hceq ▸ List.mem_map_of_mem keyify hx)
    obtain ⟨ih1, ih2, ih3⟩ := ihu
      (mapSet store (keyify r) (entryFor now (mapGet store (keyify r)) r))
      (news ++ (if (mapGet store (keyify r)).isNone then [r] else []))
      (chgs ++ (match mapGet store (keyify r) with
                | none => []
                | some p => if p.statut ≠ r.statut then [(r, p.statut)] else []))
      hnd'
    have hrefNew : refNew (mapSet store (keyify r)
        (entryFor now (mapGet store (keyify r)) r)) u = refNew store u := by
      unfold refNew
      apply List.filter_congr
      intro x hx
      rw [hlook x hx]
    have hrefChg : refChanged (mapSet store (keyify r)
        (entryFor now (mapGet store (keyify r)) r)) u = refChanged store u := by
      unfold refChanged
      apply List.filterMap_congr
      intro x hx
      unfold refChangedFn
      rw [hlook x hx]
    refine ⟨?_, ?_, ?_⟩
    · rw [ih1, hrefNew]
      unfold refNew
      rw [List.filter_cons]
      cases hn : (mapGet store (keyify r)).isNone <;> simp [hn]
    · rw [ih2, hrefChg]
      unfold refChanged
      rw [List.filterMap_cons]
      unfold refChangedFn
      cases hn : mapGet store (keyify r) with
      | none => simp
      | some p =>
        by_cases hs : p.statut ≠ r.statut <;> simp [hs]
    · intro k
      rw [ih3 k]
      cases hbk : (keyify r == k)
      · rw [List.find?_cons_of_neg _ (by simp [hbk])]
        have hkne : k ≠ keyify r := by
          intro hceq; rw [hceq] at hbk; simp at hbk
        have hset : mapGet (mapSet store (keyify r)
            (entryFor now (mapGet store (keyify r)) r)) k = mapGet store k :=
          mapGet_set_ne _ _ _ _ hkne
        cases hf : u.find? (fun x => keyify x == k) <;> simp [hf, hset]
      · have hk : keyify r = k := by simpa using hbk
        rw [List.find?_cons_of_pos _ (by simp [hbk])]
        have hfn : u.find? (fun x => keyify x == k) = none := by
          apply List.find?_eq_none.mpr
          intro x hx
          simp only [beq_iff_eq]
          intro hceq
          exact hkr (by
            rw [← hk] at hceq
            exact hceq ▸ List.mem_map_of_mem keyify hx)
        rw [hfn]
        subst hk
        simp [mapGet_set_self]

theorem classify_fold_true (now : Nat) :
    ∀ (u : List Rec) (store : Store) (news : List Rec)
      (chgs : List (Rec × String)),
      (u.map keyify).Nodup →
      (u.foldl (classifyStep true now) ⟨news, chgs, store⟩).newRows =
          news ++ u ∧
        (u.foldl (classifyStep true now) ⟨news, chgs, store⟩).changedRows =
          chgs ∧
        ∀ k, mapGet (u.foldl (classifyStep true now) ⟨news, chgs, store⟩).seen k =
          (match u.find? (fun x => keyify x == k) with
           | some x => some ⟨x.statut, now, x.horseUrl, x.raceUrl⟩
           | none => mapGet store k) := by
  intro u
  induction u with
  | nil =>
    intro store news chgs _
    exact ⟨by simp, rfl, fun k => by simp⟩
  | cons r u ihu =>
    intro store news chgs hnd
    obtain ⟨hfree, hnd'⟩ :
        (∀ y ∈ u, ¬ keyify y = keyify r) ∧ (u.map keyify).Nodup := by
      simpa using hnd
    have hkr : keyify r ∉ u.map keyify := by
      intro hm
      rcases List.mem_map.mp hm with ⟨y, hy, he⟩
      exact hfree y hy he
    rw [List.foldl_cons, classifyStep_true]
    obtain ⟨ih1, ih2, ih3⟩ := ihu
      (mapSet store (keyify r) ⟨r.statut, now, r.horseUrl, r.raceUrl⟩)
      (news ++ [r]) chgs hnd'
    refine ⟨by rw [ih1]; simp, ih2, ?_⟩
    intro k
    rw [ih3 k]
    cases hbk : (keyify r == k)
    · rw [List.find?_cons_of_neg _ (by simp [hbk])]
      have hkne : k ≠ keyify r := by
        intro hceq; rw [hceq] at hbk; simp at hbk
      have hset : mapGet (mapSet store (keyify r)
          ⟨r.statut, now, r.horseUrl, r.raceUrl⟩) k = mapGet store k :=
        mapGet_set_ne _ _ _ _ hkne
      cases hf : u.find? (fun x => keyify x == k) <;> simp [hf, hset]
    · have hk : keyify r = k := by simpa using hbk
      rw [List.find?_cons_of_pos _ (by simp [hbk])]
      have hfn : u.find? (fun x => keyify x == k) = none := by
        apply List.find?_eq_none.mpr
        intro x hx
        simp only [beq_iff_eq]
        intro hceq
        exact hkr (by
          rw [← hk] at hceq
          exact hceq ▸ List.mem_map_of_mem keyify hx)
      rw [hfn]
      subst hk
      simp [mapGet_set_self]

/-! ## Helper lemmas shared by the claim theorems -/

theorem reconcile_newRows (force isF : Bool) (now : Nat) (batch : List Rec)
    (store : Store) :
    (reconcile force isF now batch store).newRows =
      ((dedupBatch batch).foldl (classifyStep force now)
        ⟨[], [], store⟩).newRows := rfl

theorem reconcile_changedRows (force isF : Bool) (now : Nat) (batch : List Rec)
    (store : Store) :
    (reconcile force isF now batch store).changedRows =
      ((dedupBatch batch).foldl (classifyStep force now)
        ⟨[], [], store⟩).changedRows := rfl

theorem reconcile_store (force isF : Bool) (now : Nat) (batch : List Rec)
    (store : Store) :
    (reconcile force isF now batch store).store =
      ((dedupBatch batch).foldl (classifyStep force now)
        ⟨[], [], store⟩).seen := rfl

theorem refChangedFn_some (store : Store) (x : Rec) (q : Rec × String)
    (h : refChangedFn store x = some q) :
    q.1 = x ∧ ∃ p, mapGet store (keyify x) = some p ∧ p.statut ≠ x.statut ∧
      q.2 = p.statut := by
  unfold refChangedFn at h
  cases hm : mapGet store (keyify x) with
  | none => rw [hm] at h; cases h
  | some p =>
    rw [hm] at h
    have h' : (if p.statut ≠ x.statut then some (x, p.statut) else none) =
        some q := h
    by_cases hs : p.statut ≠ x.statut
    · rw [if_pos hs] at h'
      cases h'
      exact ⟨rfl, p, rfl, hs, rfl⟩
    · rw [if_neg hs] at h'
      cases h'

/-- The store entry the loop leaves for a deduplicated record, force off. -/
theorem reconcile_store_entry (batch : List Rec) (store : Store) (now : Nat)
    (isF : Bool) (r : Rec) (hr : r ∈ dedupBatch batch) :
    mapGet (reconcile false isF now batch store).store (keyify r) =
      some (entryFor now (mapGet store (keyify r)) r) := by
  have hnd := dedupBatch_keys_nodup batch
  obtain ⟨_, _, h3⟩ := classify_fold_false now (dedupBatch batch) store [] [] hnd
  have hfind := find?_key_self (dedupBatch batch) hnd r hr
  rw [reconcile_store, h3 (keyify r), hfind]

/-! ## Claim theorems: the classification loop -/

/-- **C1.** For every batch and every store, reconciliation equals the
reference algorithm: the batch is deduplicated by key keeping the first
occurrence of each key in original order (`specDedup`); each deduplicated
record whose key is absent from the store is classified new and stored
with its current status and the fresh timestamp; each record whose key is
present with a different stored status is classified changed, carrying the
old status value alongside the record, and the store entry is updated. -/
theorem c1_reconcile_matches_reference (batch : List Rec) (store : Store)
    (now : Nat) (isF : Bool) :
    dedupBatch batch = specDedup batch ∧
    (reconcile false isF now batch store).newRows =
      refNew store (specDedup batch) ∧
    (reconcile false isF now batch store).changedRows =
      refChanged store (specDedup batch) ∧
    ∀ r ∈ specDedup batch,
      (mapGet store (keyify r) = none →
        mapGet (reconcile false isF now batch store).store (keyify r) =
          some ⟨r.statut, now, r.horseUrl, r.raceUrl⟩) ∧
      (∀ p, mapGet store (keyify r) = some p → p.statut ≠ r.statut →
        mapGet (reconcile false isF now batch store).store (keyify r) =
          some ⟨r.statut, now, r.horseUrl, r.raceUrl⟩) := by
  have hnd := dedupBatch_keys_nodup batch
  have hsd := dedupBatch_eq_specDedup batch
  obtain ⟨h1, h2, _⟩ := classify_fold_false now (dedupBatch batch) store [] [] hnd
  refine ⟨hsd, ?_, ?_, ?_⟩
  · rw [reconcile_newRows, h1, ← hsd]
    simp
  · rw [reconcile_changedRows, h2, ← hsd]
    simp
  · intro r hr
    have hru : r ∈ dedupBatch batch := by rw [hsd]; exact hr
    have hst := reconcile_store_entry batch store now isF r hru
    constructor
    · intro hnone
      rw [hst]
      simp [entryFor, hnone]
    · intro p hp hne
      rw [hst]
      simp [entryFor, hp, hne]

/-- **C1 witness.**  A concrete run: one new record against the empty
store, one changed record against a store holding a different status. -/
theorem c1_reconcile_matches_reference_witness :
    (⟨"Horse A", "", "ENG", "01/01/2026", "Paris", "Prix X", "", "", "", "",
        "1600m", ""⟩ : Rec) ∈
      specDedup [⟨"Horse A", "", "ENG", "01/01/2026", "Paris", "Prix X", "",
        "", "", "", "1600m", ""⟩] ∧
    mapGet [] (keyify ⟨"Horse A", "", "ENG", "01/01/2026", "Paris", "Prix X",
        "", "", "", "", "1600m", ""⟩) = none ∧
    mapGet (reconcile false false 7
        [⟨"Horse A", "", "ENG", "01/01/2026", "Paris", "Prix X", "", "", "",
          "", "1600m", ""⟩] []).store
      (keyify ⟨"Horse A", "", "ENG", "01/01/2026", "Paris", "Prix X", "", "",
        "", "", "1600m", ""⟩) =
      some ⟨"ENG", 7, "", ""⟩ :=
  ⟨by rw [← dedupBatch_eq_specDedup]; decide, by decide,
    ((c1_reconcile_matches_reference
        [⟨"Horse A", "", "ENG", "01/01/2026", "Paris", "Prix X", "", "", "",
          "", "1600m", ""⟩] [] 7 false).2.2.2
      _ (by rw [← dedupBatch_eq_specDedup]; decide)).1 (by decide)⟩

/-- **C7.** Reconciling the same batch a second time (force off) against
the store produced by the first reconciliation yields empty `new` and
`changed` lists. -/
theorem c7_reconcile_idempotent (batch : List Rec) (store : Store)
    (now1 now2 : Nat) (isF1 isF2 : Bool) :
    (reconcile false isF2 now2 batch
      (reconcile false isF1 now1 batch store).store).newRows = [] ∧
    (reconcile false isF2 now2 batch
      (reconcile false isF1 now1 batch store).store).changedRows = [] := by
  have hnd := dedupBatch_keys_nodup batch
  have hstat : ∀ r ∈ dedupBatch batch,
      ∃ e, mapGet (reconcile false isF1 now1 batch store).store (keyify r) =
          some e ∧ e.statut = r.statut := by
    intro r hr
    refine ⟨entryFor now1 (mapGet store (keyify r)) r,
      reconcile_store_entry batch store now1 isF1 r hr, ?_⟩
    unfold entryFor
    cases mapGet store (keyify r) with
    | none => rfl
    | some p =>
      by_cases hs : p.statut ≠ r.statut
      · simp [hs]
      · push_neg at hs
        simp [hs]
  obtain ⟨g1, g2, _⟩ := classify_fold_false now2 (dedupBatch batch)
    (reconcile false isF1 now1 batch store).store [] [] hnd
  constructor
  · rw [reconcile_newRows, g1]
    have hnil : refNew (reconcile false isF1 now1 batch store).store
        (dedupBatch batch) = [] := by
      unfold refNew
      apply List.filter_eq_nil_iff.mpr
      intro r hr
      obtain ⟨e, he, _⟩ := hstat r hr
      simp [he]
    rw [hnil]
    rfl
  · rw [reconcile_changedRows, g2]
    have hnil : refChanged (reconcile false isF1 now1 batch store).store
        (dedupBatch batch) = [] := by
      unfold refChanged
      apply List.filterMap_eq_nil_iff.mpr
      intro r hr
      obtain ⟨e, he, hes⟩ := hstat r hr
      unfold refChangedFn
      rw [he]
      simp [hes]
    rw [hnil]
    rfl

/-- **C8.** With force on, every record of the deduplicated batch is
classified new regardless of the store's contents, while the store update
still records each record's real current status. -/
theorem c8_force_all_new (batch : List Rec) (store : Store) (now : Nat)
    (isF : Bool) :
    (reconcile true isF now batch store).newRows = specDedup batch ∧
    (reconcile true isF now batch store).changedRows = [] ∧
    ∀ r ∈ specDedup batch,
      mapGet (reconcile true isF now batch store).store (keyify r) =
        some ⟨r.statut, now, r.horseUrl, r.raceUrl⟩ := by
  have hnd := dedupBatch_keys_nodup batch
  have hsd := dedupBatch_eq_specDedup batch
  obtain ⟨h1, h2, h3⟩ := classify_fold_true now (dedupBatch batch) store [] [] hnd
  refine ⟨?_, ?_, ?_⟩
  · rw [reconcile_newRows, h1, ← hsd]
    simp
  · rw [reconcile_changedRows, h2]
  · intro r hr
    have hru : r ∈ dedupBatch batch := by rw [hsd]; exact hr
    have hfind := find?_key_self (dedupBatch batch) hnd r hru
    rw [reconcile_store, h3 (keyify r), hfind]

/-- **C8 witness.**  A store that already holds the record's key with the
very same status: force mode still reports the record as new. -/
theorem c8_force_all_new_witness :
    (reconcile true false 9
        [⟨"Horse A", "", "ENG", "01/01/2026", "Paris", "Prix X", "", "", "",
          "", "1600m", ""⟩]
        [(keyify ⟨"Horse A", "", "ENG", "01/01/2026", "Paris", "Prix X", "",
          "", "", "", "1600m", ""⟩, ⟨"ENG", 1, "", ""⟩)]).newRows =
      [⟨"Horse A", "", "ENG", "01/01/2026", "Paris", "Prix X", "", "", "",
        "", "1600m", ""⟩] ∧
    mapGet (reconcile true false 9
        [⟨"Horse A", "", "ENG", "01/01/2026", "Paris", "Prix X", "", "", "",
          "", "1600m", ""⟩]
        [(keyify ⟨"Horse A", "", "ENG", "01/01/2026", "Paris", "Prix X", "",
          "", "", "", "1600m", ""⟩, ⟨"ENG", 1, "", ""⟩)]).store
      (keyify ⟨"Horse A", "", "ENG", "01/01/2026", "Paris", "Prix X", "", "",
        "", "", "1600m", ""⟩) = some ⟨"ENG", 9, "", ""⟩ :=
  ⟨by
    rw [(c8_force_all_new
      [⟨"Horse A", "", "ENG", "01/01/2026", "Paris", "Prix X", "", "", "",
        "", "1600m", ""⟩]
      [(keyify ⟨"Horse A", "", "ENG", "01/01/2026", "Paris", "Prix X", "",
        "", "", "", "1600m", ""⟩, ⟨"ENG", 1, "", ""⟩)] 9 false).1,
      ← dedupBatch_eq_specDedup]
    decide,
   (c8_force_all_new
      [⟨"Horse A", "", "ENG", "01/01/2026", "Paris", "Prix X", "", "", "",
        "", "1600m", ""⟩]
      [(keyify ⟨"Horse A", "", "ENG", "01/01/2026", "Paris", "Prix X", "",
        "", "", "", "1600m", ""⟩, ⟨"ENG", 1, "", ""⟩)] 9 false).2.2
     _ (by rw [← dedupBatch_eq_specDedup]; decide)⟩

/-! ## Claim theorems: declared-participant surfacing -/

/-- **C5.** On the first run of the day, the `confirmed`
(declared-participants) list is exactly the `DP-P`-status members of the
full deduplicated batch in original order — independent of how each record
was classified, so in particular a record already present and unchanged in
the store still appears. -/
theorem c5_first_run_confirmed (force : Bool) (now : Nat) (batch : List Rec)
    (store : Store) :
    (reconcile force true now batch store).declaredParticipants =
      (specDedup batch).filter (fun r => isDPP r.statut) ∧
    ∀ r ∈ specDedup batch, isDPP r.statut = true →
      r ∈ (reconcile force true now batch store).declaredParticipants := by
  have hsd := dedupBatch_eq_specDedup batch
  have h1 : (reconcile force true now batch store).declaredParticipants =
      (dedupBatch batch).filter (fun r => isDPP r.statut) := rfl
  constructor
  · rw [h1, hsd]
  · intro r hr hd
    rw [h1, hsd]
    exact List.mem_filter.mpr ⟨hr, hd⟩

/-- **C5 witness.**  A `DP-P` record whose key is already in the store with
the same status (so it is neither new nor changed) still appears in the
declared-participants list when `isFirstRunToday` holds. -/
theorem c5_first_run_confirmed_witness :
    (⟨"Horse A", "", "DP-P /1", "01/01/2026", "Paris", "Prix X", "", "", "",
        "", "1600m", ""⟩ : Rec) ∈
      specDedup [⟨"Horse A", "", "DP-P /1", "01/01/2026", "Paris", "Prix X",
        "", "", "", "", "1600m", ""⟩] ∧
    isDPP (Rec.statut ⟨"Horse A", "", "DP-P /1", "01/01/2026", "Paris",
        "Prix X", "", "", "", "", "1600m", ""⟩) = true ∧
    (⟨"Horse A", "", "DP-P /1", "01/01/2026", "Paris", "Prix X", "", "", "",
        "", "1600m", ""⟩ : Rec) ∈
      (reconcile false true 4
        [⟨"Horse A", "", "DP-P /1", "01/01/2026", "Paris", "Prix X", "", "",
          "", "", "1600m", ""⟩]
        [(keyify ⟨"Horse A", "", "DP-P /1", "01/01/2026", "Paris", "Prix X",
          "", "", "", "", "1600m", ""⟩,
          ⟨"DP-P /1", 1, "", ""⟩)]).declaredParticipants :=
  ⟨by rw [← dedupBatch_eq_specDedup]; decide, by decide,
    (c5_first_run_confirmed false 4
        [⟨"Horse A", "", "DP-P /1", "01/01/2026", "Paris", "Prix X", "", "",
          "", "", "1600m", ""⟩]
        [(keyify ⟨"Horse A", "", "DP-P /1", "01/01/2026", "Paris", "Prix X",
          "", "", "", "", "1600m", ""⟩, ⟨"DP-P /1", 1, "", ""⟩)]).2
      _ (by rw [← dedupBatch_eq_specDedup]; decide) (by decide)⟩

/-- **C10.** Outside the first run of the day the declared-participants
list equals the `DP-P` members of `newRows` followed by the `DP-P` members
of `changedRows`; a record that is present in the store with an unchanged
status is not surfaced. -/
theorem c10_not_first_confirmed (now : Nat) (batch : List Rec)
    (store : Store) :
    (reconcile false false now batch store).declaredParticipants =
      (reconcile false false now batch store).newRows.filter
          (fun r => isDPP r.statut) ++
        ((reconcile false false now batch store).changedRows.filter
          (fun p => isDPP p.1.statut)).map Prod.fst ∧
    ∀ r p, r ∈ specDedup batch →
      mapGet store (keyify r) = some p → p.statut = r.statut →
      r ∉ (reconcile false false now batch store).declaredParticipants := by
  obtain ⟨_, hnew, hchg, _⟩ :=
    c1_reconcile_matches_reference batch store now false
  refine ⟨rfl, ?_⟩
  intro r p hr hp hs hmem
  rw [(rfl :
    (reconcile false false now batch store).declaredParticipants =
      (reconcile false false now batch store).newRows.filter
          (fun r => isDPP r.statut) ++
        ((reconcile false false now batch store).changedRows.filter
          (fun q => isDPP q.1.statut)).map Prod.fst)] at hmem
  rcases List.mem_append.mp hmem with hm | hm
  · have hrn : r ∈ (reconcile false false now batch store).newRows :=
      (List.mem_filter.mp hm).1
    rw [hnew] at hrn
    have := (List.mem_filter.mp hrn).2
    rw [hp] at this
    simp at this
  · rcases List.mem_map.mp hm with ⟨q, hq, hq1⟩
    have hqc : q ∈ (reconcile false false now batch store).changedRows :=
      (List.mem_filter.mp hq).1
    rw [hchg] at hqc
    rcases List.mem_filterMap.mp hqc with ⟨x, _, hx⟩
    obtain ⟨hx1, p', hp', hps', _⟩ := refChangedFn_some store x q hx
    have hxr : x = r := by rw [← hx1, hq1]
    rw [hxr, hp] at hp'
    cases hp'
    rw [hxr] at hps'
    exact hps' hs

/-- **C10 witness.**  A new `DP-P` record is surfaced outside the first run
of the day, while an unchanged `DP-P` record may be checked against the
second conjunct. -/
theorem c10_not_first_confirmed_witness :
    (⟨"Horse A", "", "DP-P /1", "01/01/2026", "Paris", "Prix X", "", "", "",
        "", "1600m", ""⟩ : Rec) ∈ specDedup
      [⟨"Horse A", "", "DP-P /1", "01/01/2026", "Paris", "Prix X", "", "",
        "", "", "1600m", ""⟩] ∧
    mapGet [(keyify ⟨"Horse A", "", "DP-P /1", "01/01/2026", "Paris",
        "Prix X", "", "", "", "", "1600m", ""⟩, ⟨"DP-P /1", 1, "", ""⟩)]
      (keyify ⟨"Horse A", "", "DP-P /1", "01/01/2026", "Paris", "Prix X",
        "", "", "", "", "1600m", ""⟩) = some ⟨"DP-P /1", 1, "", ""⟩ ∧
    (⟨"Horse A", "", "DP-P /1", "01/01/2026", "Paris", "Prix X", "", "", "",
        "", "1600m", ""⟩ : Rec) ∉
      (reconcile false false 4
        [⟨"Horse A", "", "DP-P /1", "01/01/2026", "Paris", "Prix X", "", "",
          "", "", "1600m", ""⟩]
        [(keyify ⟨"Horse A", "", "DP-P /1", "01/01/2026", "Paris", "Prix X",
          "", "", "", "", "1600m", ""⟩,
          ⟨"DP-P /1", 1, "", ""⟩)]).declaredParticipants :=
  ⟨by rw [← dedupBatch_eq_specDedup]; decide, by decide,
    (c10_not_first_confirmed 4
        [⟨"Horse A", "", "DP-P /1", "01/01/2026", "Paris", "Prix X", "", "",
          "", "", "1600m", ""⟩]
        [(keyify ⟨"Horse A", "", "DP-P /1", "01/01/2026", "Paris", "Prix X",
          "", "", "", "", "1600m", ""⟩, ⟨"DP-P /1", 1, "", ""⟩)]).2
      ⟨"Horse A", "", "DP-P /1", "01/01/2026", "Paris", "Prix X", "", "", "",
        "", "1600m", ""⟩
      ⟨"DP-P /1", 1, "", ""⟩
      (by rw [← dedupBatch_eq_specDedup]; decide) (by decide) (by decide)⟩

/-! ## Claim theorems: the unchanged branch (C4) -/

/-- The two records of the C4 scenario: identical identity fields and
status, but different `horseUrl` values across the two runs. -/
def c4recA : Rec :=
  ⟨"Horse A", "u1", "ENG", "01/01/2026", "Paris", "Prix X", "ru1", "", "",
    "", "1600m", ""⟩

/-- The same engagement scraped again with a different horse link. -/
def c4recB : Rec :=
  ⟨"Horse A", "u2", "ENG", "01/01/2026", "Paris", "Prix X", "ru1", "", "",
    "", "1600m", ""⟩

/-- The store left by a first run that saw `c4recA`. -/
def c4store : Store := [(keyify c4recA, ⟨"ENG", 10, "u1", "ru1"⟩)]

/-- **C4 counterexample.**  `c4recB` has the same key and the same status
as the stored entry, so it takes the unchanged branch — yet the stored
`horseUrl` does not keep its previous value `"u1"`: it is overwritten with
the current record's `"u2"` (line 992 writes `horseUrl: r.horseUrl`).
This refutes "every other stored field keeps its previous value". -/
theorem c4_counterexample :
    keyify c4recB = keyify c4recA ∧
    mapGet c4store (keyify c4recB) = some ⟨"ENG", 10, "u1", "ru1"⟩ ∧
    mapGet (reconcile false false 20 [c4recB] c4store).store (keyify c4recB) =
      some ⟨"ENG", 20, "u2", "ru1"⟩ ∧
    ("u2" : String) ≠ "u1" := by decide

/-- **C4 (amended).** For a deduplicated record whose key is present in
the store with an equal status, the record is classified neither new nor
changed and the store update keeps the stored status while refreshing the
timestamp — but the stored `horseUrl` and `raceUrl` are overwritten with
the current record's values rather than kept. -/
theorem c4_unchanged_branch (batch : List Rec) (store : Store) (now : Nat)
    (isF : Bool) (r : Rec) (p : SeenEntry)
    (hr : r ∈ specDedup batch)
    (hp : mapGet store (keyify r) = some p)
    (hs : p.statut = r.statut) :
    mapGet (reconcile false isF now batch store).store (keyify r) =
        some ⟨p.statut, now, r.horseUrl, r.raceUrl⟩ ∧
      r ∉ (reconcile false isF now batch store).newRows ∧
      ∀ old, (r, old) ∉ (reconcile false isF now batch store).changedRows := by
  obtain ⟨hsd, hnew, hchg, _⟩ :=
    c1_reconcile_matches_reference batch store now isF
  have hru : r ∈ dedupBatch batch := by rw [hsd]; exact hr
  refine ⟨?_, ?_, ?_⟩
  · rw [reconcile_store_entry batch store now isF r hru]
    simp [entryFor, hp, hs]
  · intro hmem
    rw [hnew] at hmem
    have := (List.mem_filter.mp hmem).2
    rw [hp] at this
    simp at this
  · intro old hmem
    rw [hchg] at hmem
    rcases List.mem_filterMap.mp hmem with ⟨x, _, hx⟩
    obtain ⟨hx1, p', hp', hps', _⟩ := refChangedFn_some store x (r, old) hx
    have hxr : x = r := hx1.symm
    rw [hxr, hp] at hp'
    cases hp'
    rw [hxr] at hps'
    exact hps' hs

/-- **C4 witness.**  The amended statement at the concrete C4 scenario:
status kept, timestamp refreshed, URLs overwritten. -/
theorem c4_unchanged_branch_witness :
    c4recB ∈ specDedup [c4recB] ∧
    mapGet c4store (keyify c4recB) = some ⟨"ENG", 10, "u1", "ru1"⟩ ∧
    SeenEntry.statut ⟨"ENG", 10, "u1", "ru1"⟩ = c4recB.statut ∧
    mapGet (reconcile false false 20 [c4recB] c4store).store (keyify c4recB) =
      some ⟨"ENG", 20, "u2", "ru1"⟩ :=
  ⟨by rw [← dedupBatch_eq_specDedup]; decide, by decide, by decide,
    (c4_unchanged_branch [c4recB] c4store 20 false c4recB
        ⟨"ENG", 10, "u1", "ru1"⟩
        (by rw [← dedupBatch_eq_specDedup]; decide) (by decide)
        (by decide)).1⟩

/-! ## Claim theorems: malformed records (C3) -/

/-- A record with every identity field empty. -/
def c3bad : Rec := ⟨"", "", "", "", "", "", "", "", "", "", "", ""⟩

/-- **C3 counterexample.**  A batch containing a record with no identity
fields at all is not rejected: reconciliation returns normally, classifies
the record as new and stores it under the separator-only key `"| | | |"` —
the record is silently absorbed, and the scraping layer's filter would
have dropped it silently rather than raised an error. -/
theorem c3_counterexample :
    rowValid c3bad = false ∧
    (reconcile false false 0 [c3bad] []).newRows = [c3bad] ∧
    mapGet (reconcile false false 0 [c3bad] []).store (keyify c3bad) =
      some ⟨"", 0, "", ""⟩ ∧
    keyify c3bad = "| | | |" := by decide

/-- The characterisation of the scraped-row sifting loop. -/
theorem scrapeSift_spec (rows : List Rec) :
    (scrapeSift rows).1 = rows.filter rowValid ∧
    (scrapeSift rows).2 =
      rows.length - (rows.filter rowValid).length := by
  suffices h : ∀ (rows : List Rec) (acc : List Rec) (n : Nat),
      rows.foldl (fun acc r =>
          if rowValid r then (acc.1 ++ [r], acc.2) else (acc.1, acc.2 + 1))
        (acc, n) =
        (acc ++ rows.filter rowValid,
         n + (rows.length - (rows.filter rowValid).length)) by
    have := h rows [] 0
    unfold scrapeSift
    rw [this]
    simp
  intro rows
  induction rows with
  | nil => intro acc n; simp
  | cons r rest ih =>
    intro acc n
    have hle := List.length_filter_le rowValid rest
    cases hv : rowValid r
    · have hstep : (if rowValid r = true then ((acc, n).1 ++ [r], (acc, n).2)
          else ((acc, n).1, (acc, n).2 + 1)) = (acc, n + 1) := by simp [hv]
      rw [List.foldl_cons, hstep, ih acc (n + 1), List.filter_cons, hv]
      simp only [Bool.false_eq_true, if_false, List.length_cons,
        Prod.mk.injEq]
      exact ⟨trivial, by omega⟩
    · have hstep : (if rowValid r = true then ((acc, n).1 ++ [r], (acc, n).2)
          else ((acc, n).1, (acc, n).2 + 1)) = (acc ++ [r], n) := by simp [hv]
      rw [List.foldl_cons, hstep, ih (acc ++ [r]) n, List.filter_cons, hv]
      simp only [eq_self_iff_true, if_true, List.length_cons, Prod.mk.injEq,
        List.append_assoc, List.singleton_append]
      exact ⟨trivial, by omega⟩

/-- **C3 (amended).** Records missing mandatory identity fields are
silently dropped by the scraping layer's validity filter (counted in
`skippedCount`, no error is raised), and reconciliation itself performs no
validation: the key of every batch record — malformed or not — ends up
present in the updated store. -/
theorem c3_no_rejection (rows batch : List Rec) (store : Store) (now : Nat)
    (isF : Bool) (r : Rec) (hr : r ∈ batch) :
    (scrapeSift rows).1 = rows.filter rowValid ∧
    (scrapeSift rows).2 = rows.length - (rows.filter rowValid).length ∧
    (mapGet (reconcile false isF now batch store).store (keyify r)).isSome :=
  by
  refine ⟨(scrapeSift_spec rows).1, (scrapeSift_spec rows).2, ?_⟩
  rcases dedup_key_covered batch [] r hr with h | ⟨r', hr', hk⟩
  · simp [List.contains] at h
  · rw [← hk, reconcile_store_entry batch store now isF r' hr']
    rfl

/-- **C3 witness.**  The amended statement at the malformed record: it is
filtered at the scraping layer, and its key is nevertheless stored when it
reaches reconciliation. -/
theorem c3_no_rejection_witness :
    c3bad ∈ [c3bad] ∧
    (scrapeSift [c3bad]).1 = [] ∧
    (mapGet (reconcile false false 0 [c3bad] []).store (keyify c3bad)).isSome :=
  ⟨List.mem_singleton.mpr rfl,
    by
      rw [(c3_no_rejection [c3bad] [c3bad] [] 0 false c3bad
        (List.mem_singleton.mpr rfl)).1]
      decide,
    (c3_no_rejection [c3bad] [c3bad] [] 0 false c3bad
      (List.mem_singleton.mpr rfl)).2.2⟩

/-! ## Claim theorems: the save-time cap (C2) -/

/-- The 3000 low-timestamp entries that fill the store of the C2 scenario,
in insertion order after the special entry. -/
def c2tail : Store :=
  (List.range 3000).map (fun i =>
    (String.mk (List.replicate (i + 1) 'a'), ⟨"S", i, "", ""⟩))

/-- The earliest-inserted entry of the C2 store — the one with the
strictly greatest `last` timestamp, i.e. the most recently updated entry
(an entry updated through `Map.set` keeps its insertion position). -/
def c2special : String × SeenEntry := ("zz", ⟨"S", 5000, "", ""⟩)

/-- A store of 3001 entries whose first entry carries the newest
timestamp. -/
def c2store : Store := c2special :: c2tail

theorem c2store_length : c2store.length = 3001 := by
  simp [c2store, c2tail]

theorem saveSeen_c2store : saveSeen c2store = c2tail := by
  have h1 : c2store.length - seenCap = 1 := by
    rw [c2store_length]
    rfl
  show c2store.drop (c2store.length - seenCap) = c2tail
  rw [h1]
  rfl

/-- **C2 counterexample.**  `saveSeen` keeps the last 3000 entries of the
map's iteration order, which is first-insertion order: the unique entry
with the greatest `last` timestamp (the most recently updated one) sits at
the front and is evicted, refuting "retains exactly the N most recently
updated entries". -/
theorem c2_counterexample :
    seenCap < c2store.length ∧
    c2store.all
      (fun q => q == c2special || decide (q.2.last < c2special.2.last)) =
      true ∧
    c2special ∈ c2store ∧
    (saveSeen c2store).all (fun q => q.1 != c2special.1) = true := by
  refine ⟨?_, ?_, List.mem_cons_self _ _, ?_⟩
  · rw [c2store_length]
    norm_num [seenCap]
  · rw [List.all_eq_true]
    intro q hq
    rcases List.mem_cons.mp hq with rfl | hq'
    · simp
    · rcases List.mem_map.mp hq' with ⟨i, hi, rfl⟩
      have : i < 3000 := List.mem_range.mp hi
      simp only [Bool.or_eq_true, decide_eq_true_eq]
      right
      show i < 5000
      omega
  · rw [saveSeen_c2store, List.all_eq_true]
    intro q hq
    rcases List.mem_map.mp hq with ⟨i, _, rfl⟩
    simp only [bne_iff_ne, ne_eq]
    intro h
    have hd := congrArg String.data h
    have hzz : (String.mk (List.replicate (i + 1) 'a')).data =
        List.replicate (i + 1) 'a' := rfl
    rw [hzz, List.replicate_succ] at hd
    have hzz2 : (c2special.1).data = ['z', 'z'] := rfl
    rw [hzz2] at hd
    injection hd with h1 _
    exact absurd h1 (by decide)

/-- **C2 (amended).** `saveSeen` retains exactly the suffix of the last
`seenCap` entries in map iteration order (= first-insertion order),
evicting the earliest-inserted entries first; and since `Map.set` on an
existing key rewrites the entry in place without moving it, updating an
entry does not protect it from eviction. -/
theorem c2_saveSeen_keeps_suffix (m : Store) (k : String) (v : SeenEntry)
    (hlen : seenCap ≤ m.length) (hk : (mapGet m k).isSome = true) :
    m.take (m.length - seenCap) ++ saveSeen m = m ∧
    (saveSeen m).length = seenCap ∧
    (mapSet m k v).map Prod.fst = m.map Prod.fst := by
  refine ⟨List.take_append_drop _ _, ?_, ?_⟩
  · rw [saveSeen, List.length_drop]
    omega
  · apply mapSet_keys_of_mem
    rw [mapGet_any_isSome]
    exact hk

/-- **C2 witness.**  The amended statement at the 3001-entry store: the
cap keeps 3000 entries and an in-place update of the front key leaves the
key order untouched. -/
theorem c2_saveSeen_keeps_suffix_witness :
    seenCap ≤ c2store.length ∧
    (mapGet c2store "zz").isSome = true ∧
    (saveSeen c2store).length = seenCap ∧
    (mapSet c2store "zz" ⟨"T", 9999, "", ""⟩).map Prod.fst =
      c2store.map Prod.fst :=
  have hlen : seenCap ≤ c2store.length := by
    rw [c2store_length]; norm_num [seenCap]
  have hk : (mapGet c2store "zz").isSome = true := rfl
  ⟨hlen, hk,
    (c2_saveSeen_keeps_suffix c2store "zz" ⟨"T", 9999, "", ""⟩ hlen hk).2.1,
    (c2_saveSeen_keeps_suffix c2store "zz" ⟨"T", 9999, "", ""⟩ hlen hk).2.2⟩

/-! ## Claim theorems: message chunking (C6) -/

/-- The length accumulator `len` of `chunkLines`, as a function of the
buffered lines: the header, a newline, and each line with its newline. -/
def bufLen (header : String) (buf : List String) : Nat :=
  header.length + 1 + (buf.map (fun s => s.length + 1)).sum

theorem joinNL_length (ls : List (List Char)) (h : ls ≠ []) :
    (joinNL ls).length + 1 = (ls.map (fun l => l.length + 1)).sum := by
  induction ls with
  | nil => cases h rfl
  | cons x ls ih =>
    cases ls with
    | nil => simp [joinNL]
    | cons y ls' =>
      have ihy := ih (by simp)
      simp only [joinNL, List.length_append, List.length_cons, List.map_cons,
        List.sum_cons] at ihy ⊢
      omega

theorem renderChunk_length (header : String) (buf : List String) :
    (renderChunk header buf).length =
      header.length + 1 + (joinNL (buf.map String.data)).length := by
  show (header.data ++ '\n' :: joinNL (buf.map String.data)).length =
    header.data.length + 1 + (joinNL (buf.map String.data)).length
  rw [List.length_append, List.length_cons]
  omega

theorem renderChunk_le (header : String) (buf : List String) (maxLen : Nat)
    (h : bufLen header buf ≤ maxLen) :
    (renderChunk header buf).length ≤ maxLen := by
  cases buf with
  | nil =>
    rw [renderChunk_length]
    unfold bufLen at h
    simp only [List.map_nil, List.sum_nil, Nat.add_zero] at h
    simpa [joinNL] using h
  | cons s bs =>
    rw [renderChunk_length]
    have hj := joinNL_length ((s :: bs).map String.data) (by simp)
    have hsum : (((s :: bs).map String.data).map (fun l => l.length + 1)).sum =
        ((s :: bs).map (fun t => t.length + 1)).sum := by
      rw [List.map_map]
      rfl
    rw [hsum] at hj
    unfold bufLen at h
    omega

/-- The loop invariant of `chunkLines`: the accumulator tracks the buffer
length, stays within the budget, and every flushed chunk is within the
budget. -/
def chunkOK (maxLen : Nat) (header : String) (st : ChunkState) : Prop :=
  st.len = bufLen header st.buf ∧ st.len ≤ maxLen ∧
    ∀ b ∈ st.chunks, bufLen header b ≤ maxLen

theorem chunk_fold_invariant (header : String) (maxLen : Nat) :
    ∀ (lines : List String) (st : ChunkState),
      (∀ ln ∈ lines, header.length + 1 + ln.length + 1 ≤ maxLen) →
      chunkOK maxLen header st →
      chunkOK maxLen header (lines.foldl (chunkStep header maxLen) st) := by
  intro lines
  induction lines with
  | nil => intro st _ h; exact h
  | cons ln lines ih =>
    rintro st hH ⟨h1, h2, h3⟩
    rw [List.foldl_cons]
    apply ih _ (fun x hx => hH x (List.mem_cons_of_mem _ hx))
    unfold chunkStep
    by_cases hc : maxLen < st.len + ln.length + 1
    · rw [if_pos hc]
      refine ⟨?_, ?_, ?_⟩
      · show header.length + 1 + ln.length + 1 = bufLen header [ln]
        unfold bufLen
        simp only [List.map_cons, List.map_nil, List.sum_cons, List.sum_nil]
        omega
      · exact hH ln (List.mem_cons_self _ _)
      · intro b hb
        rcases List.mem_append.mp hb with hb | hb
        · exact h3 b hb
        · rw [List.mem_singleton.mp hb, ← h1]
          exact h2
    · rw [if_neg hc]
      refine ⟨?_, ?_, h3⟩
      · show st.len + ln.length + 1 = bufLen header (st.buf ++ [ln])
        rw [h1]
        unfold bufLen
        rw [List.map_append, List.sum_append]
        simp only [List.map_cons, List.map_nil, List.sum_cons, List.sum_nil]
        omega
      · show st.len + ln.length + 1 ≤ maxLen
        omega

theorem chunk_fold_flatten (header : String) (maxLen : Nat) :
    ∀ (lines : List String) (st : ChunkState),
      ((lines.foldl (chunkStep header maxLen) st).chunks.flatten ++
          (lines.foldl (chunkStep header maxLen) st).buf) =
        st.chunks.flatten ++ st.buf ++ lines := by
  intro lines
  induction lines with
  | nil => intro st; simp
  | cons ln lines ih =>
    intro st
    rw [List.foldl_cons, ih]
    unfold chunkStep
    by_cases hc : maxLen < st.len + ln.length + 1
    · rw [if_pos hc]
      simp
    · rw [if_neg hc]
      simp

theorem chunkBufs_eq (header : String) (lines : List String) (maxLen : Nat) :
    chunkBufs header lines maxLen =
      (if (lines.foldl (chunkStep header maxLen)
            ⟨[], [], header.length + 1⟩).buf.isEmpty then
        (lines.foldl (chunkStep header maxLen)
          ⟨[], [], header.length + 1⟩).chunks
      else (lines.foldl (chunkStep header maxLen)
            ⟨[], [], header.length + 1⟩).chunks ++
          [(lines.foldl (chunkStep header maxLen)
            ⟨[], [], header.length + 1⟩).buf]) := rfl

/-- **C6 (amended).** `chunkLines` never splits a line: the chunk buffers
concatenate back to exactly the input lines in order (each line whole, in
exactly one chunk), and `chunkLines` renders exactly those buffers.
Every chunk's total length stays within the budget *provided* every line
fits the budget alongside the header
(`header.length + 1 + line.length + 1 ≤ maxLen`); without that proviso an
oversized line yields an oversized chunk (see the counterexample). -/
theorem c6_chunkLines (header : String) (lines : List String) (maxLen : Nat) :
    (chunkBufs header lines maxLen).flatten = lines ∧
    chunkLines header lines maxLen =
      (chunkBufs header lines maxLen).map (renderChunk header) ∧
    ((∀ ln ∈ lines, header.length + 1 + ln.length + 1 ≤ maxLen) →
      ∀ c ∈ chunkLines header lines maxLen, c.length ≤ maxLen) := by
  refine ⟨?_, rfl, ?_⟩
  · have hf := chunk_fold_flatten header maxLen lines ⟨[], [], header.length + 1⟩
    simp only [List.flatten_nil, List.nil_append] at hf
    rw [chunkBufs_eq]
    cases hb : (lines.foldl (chunkStep header maxLen)
        ⟨[], [], header.length + 1⟩).buf with
    | nil =>
      rw [hb] at hf
      simpa using hf
    | cons b bs =>
      rw [hb] at hf
      simp only [List.isEmpty_cons, Bool.false_eq_true, if_false,
        List.flatten_append]
      simpa using hf
  · intro hH c hc
    cases lines with
    | nil =>
      simp [chunkLines, chunkBufs] at hc
    | cons l0 ls =>
      have hbase : chunkOK maxLen header ⟨[], [], header.length + 1⟩ := by
        refine ⟨by simp [bufLen], ?_, by simp⟩
        show header.length + 1 ≤ maxLen
        have := hH l0 (List.mem_cons_self _ _)
        omega
      have hinv := chunk_fold_invariant header maxLen (l0 :: ls)
        ⟨[], [], header.length + 1⟩ hH hbase
      obtain ⟨g1, g2, g3⟩ := hinv
      rcases List.mem_map.mp hc with ⟨b, hb, rfl⟩
      rw [chunkBufs_eq] at hb
      apply renderChunk_le
      by_cases hbe : ((l0 :: ls).foldl (chunkStep header maxLen)
          ⟨[], [], header.length + 1⟩).buf.isEmpty
      · rw [if_pos hbe] at hb
        exact g3 b hb
      · rw [if_neg hbe] at hb
        rcases List.mem_append.mp hb with hb | hb
        · exact g3 b hb
        · rw [List.mem_singleton.mp hb, ← g1]
          exact g2

/-- **C6 witness.**  The spec's own instance: 50 lines of 40 characters
with budget 100 (and a header that fits): every chunk stays within the
budget. -/
theorem c6_chunkLines_witness :
    (∀ ln ∈ List.replicate 50 (String.mk (List.replicate 40 'b')),
      ("H" : String).length + 1 + ln.length + 1 ≤ 100) ∧
    ∀ c ∈ chunkLines "H"
        (List.replicate 50 (String.mk (List.replicate 40 'b'))) 100,
      c.length ≤ 100 :=
  ⟨by decide,
    (c6_chunkLines "H"
        (List.replicate 50 (String.mk (List.replicate 40 'b'))) 100).2.2
      (by decide)⟩

/-- The oversized line of the C6 counterexample. -/
def c6line : String := String.mk (List.replicate 100 'a')

/-- **C6 counterexample.**  With header `"H"` and budget 100, a single
100-character line is placed in a chunk of length 102 — the budget bound
of the claim fails without the fit proviso (the run also emits a
header-only chunk first). -/
theorem c6_counterexample :
    chunkLines "H" [c6line] 100 = ["H\n", "H\n" ++ c6line] ∧
    ("H\n" ++ c6line) ∈ chunkLines "H" [c6line] 100 ∧
    100 < ("H\n" ++ c6line).length := by decide

/-! ## Claim theorems: key normalisation (C9)

The structure of `norm` over a `' | '`-join: whitespace collapsing and
trimming over the joined identity fields is determined by the collapsed
and trimmed fields, which yields the congruence of `keyify` under
per-field case/whitespace normalisation. -/

/-- Whether the last character consumed so far is whitespace (`b` if no
character has been consumed). -/
def endSt (b : Bool) (l : List Char) : Bool := l.foldl (fun _ c => jsWS c) b

theorem endSt_nil (b : Bool) : endSt b [] = b := rfl

theorem endSt_cons (b : Bool) (c : Char) (l : List Char) :
    endSt b (c :: l) = endSt (jsWS c) l := rfl

theorem collapseAux_cons_nws (b : Bool) (c : Char) (l : List Char)
    (h : jsWS c = false) :
    collapseAux b (c :: l) = c :: collapseAux false l := by
  simp only [collapseAux, h, Bool.false_eq_true, if_false]

theorem collapseAux_true_ws (c : Char) (l : List Char) (h : jsWS c = true) :
    collapseAux true (c :: l) = collapseAux true l := by
  simp only [collapseAux, h, eq_self_iff_true, if_true]

theorem collapseAux_false_ws (c : Char) (l : List Char) (h : jsWS c = true) :
    collapseAux false (c :: l) = ' ' :: collapseAux true l := by
  simp only [collapseAux, h, eq_self_iff_true, if_true, Bool.false_eq_true,
    if_false]

theorem collapseAux_append (xs : List Char) :
    ∀ (b : Bool) (ys : List Char),
      collapseAux b (xs ++ ys) =
        collapseAux b xs ++ collapseAux (endSt b xs) ys := by
  induction xs with
  | nil => intro b ys; rfl
  | cons c xs ih =>
    intro b ys
    rw [List.cons_append, endSt_cons]
    cases hc : jsWS c
    · rw [collapseAux_cons_nws b c _ hc, collapseAux_cons_nws b c _ hc,
        ih false ys, List.cons_append]
    · cases b
      · rw [collapseAux_false_ws c _ hc, collapseAux_false_ws c _ hc,
          ih true ys, List.cons_append]
      · rw [collapseAux_true_ws c _ hc, collapseAux_true_ws c _ hc,
          ih true ys]

/-- The output of `collapseAux true` never starts with whitespace. -/
theorem collapseAux_true_noLead (l : List Char) :
    (collapseAux true l).dropWhile jsWS = collapseAux true l := by
  induction l with
  | nil => rfl
  | cons c l ih =>
    cases hc : jsWS c
    · rw [collapseAux_cons_nws true c l hc,
        List.dropWhile_cons_of_neg (by simp [hc])]
    · rw [collapseAux_true_ws c l hc]
      exact ih

theorem trimLeft_collapseAux (l : List Char) :
    trimLeft (collapseAux true l) = collapseAux true l ∧
    trimLeft (collapseAux false l) = collapseAux true l := by
  induction l with
  | nil => exact ⟨rfl, rfl⟩
  | cons c l ih =>
    cases hc : jsWS c
    · rw [collapseAux_cons_nws true c l hc, collapseAux_cons_nws false c l hc]
      constructor <;>
        exact List.dropWhile_cons_of_neg (by simp [hc])
    · rw [collapseAux_true_ws c l hc, collapseAux_false_ws c l hc]
      refine ⟨ih.1, ?_⟩
      show List.dropWhile jsWS (' ' :: collapseAux true l) = collapseAux true l
      rw [List.dropWhile_cons_of_pos (by decide)]
      exact ih.1

theorem collapseAux_true_nil_endSt (l : List Char)
    (h : collapseAux true l = []) : endSt true l = true := by
  induction l with
  | nil => rfl
  | cons c l ih =>
    cases hc : jsWS c
    · rw [collapseAux_cons_nws true c l hc] at h
      cases h
    · rw [collapseAux_true_ws c l hc] at h
      rw [endSt_cons, hc]
      exact ih h

theorem trimRight_cons (c : Char) (l : List Char) :
    trimRight (c :: l) =
      match trimRight l with
      | [] => if jsWS c then [] else [c]
      | x => c :: x := by
  simp only [trimRight]

theorem trimRight_cons_nil (c : Char) (l : List Char)
    (h : trimRight l = []) :
    trimRight (c :: l) = if jsWS c then [] else [c] := by
  rw [trimRight_cons, h]

theorem trimRight_cons_ne (c : Char) (l : List Char)
    (h : trimRight l ≠ []) :
    trimRight (c :: l) = c :: trimRight l := by
  rw [trimRight_cons]
  cases ht : trimRight l with
  | nil => exact absurd ht h
  | cons y ys => rfl

theorem trimRight_ne_nil_of_head (y : Char) (ys : List Char)
    (h : jsWS y = false) : trimRight (y :: ys) ≠ [] := by
  cases ht : trimRight ys with
  | nil =>
    rw [trimRight_cons_nil y ys ht, if_neg (by simp [h])]
    simp
  | cons z zs =>
    rw [trimRight_cons_ne y ys (by rw [ht]; simp)]
    simp

/-- The fully normalised form of a field: collapse whitespace (with a run
considered already open) and trim the right end; no leading whitespace can
occur.  This equals `normL` (see `normL_eq_fieldCanon`). -/
def fieldCanon (l : List Char) : List Char := trimRight (collapseAux true l)

/-- A canonical field followed by the single space that separates it from
the `|` of the join separator — empty when the field collapses to
nothing, in which case the separator's own space was already emitted. -/
def padT (l : List Char) : List Char :=
  if fieldCanon l = [] then [] else fieldCanon l ++ [' ']

/-- `collapseAux` output decomposes as its right-trimmed form plus a
single trailing space exactly when the input ended in whitespace (and the
output is non-empty). -/
theorem collapseAux_trimRight (l : List Char) :
    ∀ b, collapseAux b l =
      trimRight (collapseAux b l) ++
        (if endSt b l = true ∧ collapseAux b l ≠ [] then [' '] else []) := by
  induction l with
  | nil =>
    intro b
    simp [collapseAux, trimRight]
  | cons c l ih =>
    intro b
    cases hc : jsWS c
    case false =>
      rw [collapseAux_cons_nws b c l hc, endSt_cons, hc]
      cases ht : trimRight (collapseAux false l) with
      | nil =>
        rw [trimRight_cons_nil _ _ ht, if_neg (by simp [hc])]
        have hX := ih false
        rw [ht] at hX
        simp only [List.nil_append] at hX
        by_cases hX0 : collapseAux false l = []
        · have hl : l = [] := by
            cases l with
            | nil => rfl
            | cons d l' =>
              cases hd : jsWS d
              · rw [collapseAux_cons_nws false d l' hd] at hX0; cases hX0
              · rw [collapseAux_false_ws d l' hd] at hX0; cases hX0
          subst hl
          simp [endSt, collapseAux]
        · have hcond : endSt false l = true := by
            by_contra hec
            rw [if_neg (by tauto)] at hX
            exact hX0 hX
          have hXval : collapseAux false l = [' '] := by
            rw [if_pos ⟨hcond, hX0⟩] at hX
            exact hX
          rw [hXval, hcond]
          rw [if_pos ⟨rfl, by simp⟩]
          rfl
      | cons y ys =>
        rw [trimRight_cons_ne _ _ (by rw [ht]; simp)]
        have hX := ih false
        have hXne : collapseAux false l ≠ [] := by
          intro h0
          rw [h0] at ht
          cases (show ([] : List Char) = y :: ys from ht)
        conv_lhs => rw [hX]
        simp only [List.cons_append]
        congr 1
        congr 1
        refine if_congr ?_ rfl rfl
        simp [hXne]
    case true =>
      cases b
      case true =>
        rw [collapseAux_true_ws c l hc, endSt_cons, hc]
        exact ih true
      case false =>
        rw [collapseAux_false_ws c l hc, endSt_cons, hc]
        cases hX0 : collapseAux true l with
        | nil =>
          have he := collapseAux_true_nil_endSt l hX0
          rw [trimRight_cons_nil ' ' [] (by rfl), if_pos (by decide)]
          rw [he, if_pos ⟨rfl, by simp⟩]
          rfl
        | cons y ys =>
          have hhead : jsWS y = false := by
            have hnl := collapseAux_true_noLead l
            rw [hX0] at hnl
            have h0 := List.dropWhile_eq_self_iff.mp hnl (by simp)
            simpa using h0
          have htne : trimRight (y :: ys) ≠ [] :=
            trimRight_ne_nil_of_head y ys hhead
          rw [trimRight_cons_ne ' ' (y :: ys) htne]
          have hX := ih true
          rw [hX0] at hX
          conv_lhs => rw [hX]
          simp only [List.cons_append]
          congr 1
          congr 1
          refine if_congr ?_ rfl rfl
          simp

theorem collapseAux_true_shape (f : List Char) :
    collapseAux true f = [] ∨
      (fieldCanon f ≠ [] ∧
        collapseAux true f =
          fieldCanon f ++ (if endSt true f = true then [' '] else [])) := by
  by_cases h0 : collapseAux true f = []
  · exact Or.inl h0
  · right
    obtain ⟨y, ys, hX⟩ : ∃ y ys, collapseAux true f = y :: ys := by
      cases hX : collapseAux true f with
      | nil => exact absurd hX h0
      | cons y ys => exact ⟨y, ys, rfl⟩
    have hhead : jsWS y = false := by
      have hnl := collapseAux_true_noLead f
      rw [hX] at hnl
      have h1 := List.dropWhile_eq_self_iff.mp hnl (by simp)
      simpa using h1
    have hfc : fieldCanon f ≠ [] := by
      unfold fieldCanon
      rw [hX]
      exact trimRight_ne_nil_of_head y ys hhead
    refine ⟨hfc, ?_⟩
    have htr := collapseAux_trimRight f true
    rw [htr]
    show fieldCanon f ++ _ = _
    congr 1
    refine if_congr ?_ rfl rfl
    simp [h0]

theorem collapseAux_padT (f : List Char) :
    collapseAux true f ++ (if endSt true f = true then [] else [' ']) =
      padT f := by
  rcases collapseAux_true_shape f with h0 | ⟨hfc, hsh⟩
  · have he := collapseAux_true_nil_endSt f h0
    have hfc0 : fieldCanon f = [] := by
      unfold fieldCanon
      rw [h0]
      rfl
    rw [h0, he]
    unfold padT
    rw [if_pos hfc0]
    rfl
  · rw [hsh]
    unfold padT
    rw [if_neg hfc]
    cases he : endSt true f <;> simp [he]

theorem collapseAux_seg (f rest : List Char) :
    collapseAux true (f ++ (sepBar ++ rest)) =
      padT f ++ '|' :: ' ' :: collapseAux true rest := by
  rw [collapseAux_append]
  have hsep : ∀ e : Bool, collapseAux e (sepBar ++ rest) =
      (if e = true then [] else [' ']) ++ '|' :: ' ' :: collapseAux true rest := by
    intro e
    show collapseAux e (' ' :: '|' :: ' ' :: rest) = _
    cases e
    · rw [collapseAux_false_ws _ _ (by decide),
        collapseAux_cons_nws _ _ _ (by decide),
        collapseAux_false_ws _ _ (by decide)]
      rfl
    · rw [collapseAux_true_ws _ _ (by decide),
        collapseAux_cons_nws _ _ _ (by decide),
        collapseAux_false_ws _ _ (by decide)]
      rfl
  rw [hsep (endSt true f), ← List.append_assoc, collapseAux_padT]

/-- The canonical form of the normalised joined key as a function of the
canonical fields alone. -/
def keyCanon : List (List Char) → List Char
  | [] => []
  | [c] => c
  | c :: cs =>
    (if c = [] then [] else c ++ [' ']) ++
      '|' :: (match keyCanon cs with
              | [] => []
              | x => ' ' :: x)

theorem keyCanon_cons₂ (c d : List Char) (cs : List (List Char)) :
    keyCanon (c :: d :: cs) =
      (if c = [] then [] else c ++ [' ']) ++
        '|' :: (match keyCanon (d :: cs) with
                | [] => []
                | x => ' ' :: x) := by
  simp only [keyCanon]

theorem trimRight_append (A B : List Char) :
    trimRight (A ++ B) =
      match trimRight B with
      | [] => trimRight A
      | x => A ++ x := by
  induction A with
  | nil =>
    cases ht : trimRight B with
    | nil => simpa using ht
    | cons y ys => simpa using ht
  | cons a A ih =>
    rw [List.cons_append]
    cases ht : trimRight B with
    | nil =>
      simp only [ht] at ih
      cases hA : trimRight A with
      | nil =>
        rw [trimRight_cons_nil _ _ (ih.trans hA), trimRight_cons_nil _ _ hA]
      | cons u us =>
        rw [trimRight_cons_ne _ _ (by rw [ih, hA]; simp),
          trimRight_cons_ne _ _ (by rw [hA]; simp), ih]
    | cons y ys =>
      simp only [ht] at ih
      rw [trimRight_cons_ne _ _ (by rw [ih]; simp), ih]
      rfl

theorem joinBar_cons₂ (f g : List Char) (fs : List (List Char)) :
    joinBar (f :: g :: fs) = f ++ sepBar ++ joinBar (g :: fs) := by
  simp only [joinBar]

/-- The right-trimmed collapse of a `' | '`-join is determined by the
canonical forms of the fields. -/
theorem keyK : ∀ fs : List (List Char),
    trimRight (collapseAux true (joinBar fs)) = keyCanon (fs.map fieldCanon)
  | [] => rfl
  | [f] => rfl
  | f :: g :: fs => by
    have ih := keyK (g :: fs)
    rw [joinBar_cons₂, List.append_assoc, collapseAux_seg,
      show padT f ++ '|' :: ' ' :: collapseAux true (joinBar (g :: fs)) =
        (padT f ++ ['|']) ++ (' ' :: collapseAux true (joinBar (g :: fs)))
        from by simp,
      trimRight_append]
    simp only [List.map_cons] at ih ⊢
    rw [keyCanon_cons₂, ← ih]
    cases hT : trimRight (collapseAux true (joinBar (g :: fs))) with
    | nil =>
      rw [trimRight_cons_nil ' ' _ hT, if_pos (by decide)]
      show trimRight (padT f ++ ['|']) =
        (if fieldCanon f = [] then [] else fieldCanon f ++ [' ']) ++ ['|']
      rw [trimRight_append]
      have h1 : trimRight (['|'] : List Char) = ['|'] := by decide
      rw [h1]
      rfl
    | cons y ys =>
      rw [trimRight_cons_ne ' ' _ (by rw [hT]; simp)]
      rw [hT]
      show padT f ++ ['|'] ++ (' ' :: y :: ys) =
        (if fieldCanon f = [] then [] else fieldCanon f ++ [' ']) ++
          '|' :: ' ' :: y :: ys
      unfold padT
      simp

theorem aposChar_id (c : Char) : aposChar c = c := by
  unfold aposChar
  by_cases h : c = '\''
  · rw [if_pos h, h]
  · rw [if_neg h]

theorem map_aposChar_id (l : List Char) : l.map aposChar = l := by
  rw [show aposChar = id from funext aposChar_id, List.map_id]

/-- `norm` at the list level is exactly the canonical field form. -/
theorem normL_eq_fieldCanon (l : List Char) : normL l = fieldCanon l := by
  unfold normL trimBoth collapseWS fieldCanon
  rw [map_aposChar_id, (trimLeft_collapseAux l).2]

/-- `norm` of a `' | '`-join is determined by the `norm`s of the fields. -/
theorem normL_joinBar (fs : List (List Char)) :
    normL (joinBar fs) = keyCanon (fs.map normL) := by
  rw [normL_eq_fieldCanon]
  unfold fieldCanon
  rw [keyK fs]
  congr 1
  rw [show fieldCanon = normL from funext fun l => (normL_eq_fieldCanon l).symm]

/-- Lowercasing distributes over the canonical key structure (the
separator characters are fixed by `jsLowerChar`). -/
theorem map_lower_keyCanon (cs : List (List Char)) :
    (keyCanon cs).map jsLowerChar =
      keyCanon (cs.map (List.map jsLowerChar)) := by
  induction cs with
  | nil => rfl
  | cons c cs ih =>
    cases cs with
    | nil => rfl
    | cons d cs' =>
      rw [List.map_cons, List.map_cons, keyCanon_cons₂, keyCanon_cons₂,
        ← List.map_cons]
      rw [List.map_append, List.map_cons]
      congr 1
      · by_cases hc : c = []
        · rw [if_pos hc, if_pos (by rw [hc]; rfl)]
          rfl
        · rw [if_neg hc, if_neg (by simpa using hc), List.map_append]
          rfl
      · rw [show jsLowerChar '|' = '|' from by decide]
        congr 1
        rw [← ih]
        cases hk : keyCanon (d :: cs') with
        | nil => rfl
        | cons z zs => rfl

theorem keyify_eq (r : Rec) :
    keyify r = ⟨(normL (joinBar [r.horse.data, r.date.data, r.track.data,
      r.race.data, r.dist.data])).map jsLowerChar⟩ := rfl

/-- **C9 (amended).** Two records whose identity fields agree up to
`norm`-plus-lowercasing — i.e. differ only in letter case, whitespace runs
and leading/trailing whitespace — receive the same key.  (Apostrophe-like
variants are *not* covered: `norm`'s apostrophe replacement is the
identity, see the counterexample.) -/
theorem c9_keyify_normalization (r1 r2 : Rec)
    (hh : jsToLower (norm r1.horse) = jsToLower (norm r2.horse))
    (hd : jsToLower (norm r1.date) = jsToLower (norm r2.date))
    (ht : jsToLower (norm r1.track) = jsToLower (norm r2.track))
    (hr : jsToLower (norm r1.race) = jsToLower (norm r2.race))
    (hs : jsToLower (norm r1.dist) = jsToLower (norm r2.dist)) :
    keyify r1 = keyify r2 := by
  have conv : ∀ s t : String, jsToLower (norm s) = jsToLower (norm t) →
      (normL s.data).map jsLowerChar = (normL t.data).map jsLowerChar := by
    intro s t h
    exact congrArg String.data h
  rw [keyify_eq, keyify_eq]
  congr 1
  rw [normL_joinBar, normL_joinBar, map_lower_keyCanon, map_lower_keyCanon]
  congr 1
  simp only [List.map_cons, List.map_nil]
  rw [conv _ _ hh, conv _ _ hd, conv _ _ ht, conv _ _ hr, conv _ _ hs]

/-- **C9 witness.**  The spec's example: subjects `"É. Test"` and
`"é.  test"` (case, accent case and doubled whitespace) give equal keys,
even with different statuses. -/
theorem c9_keyify_normalization_witness :
    jsToLower (norm "É. Test") = jsToLower (norm "é.  test") ∧
    keyify ⟨"É. Test", "", "ENG", "01/01/2026", "Paris", "Prix X", "", "",
        "", "", "1600m", ""⟩ =
      keyify ⟨"é.  test", "", "DP-P", "01/01/2026", "Paris", "Prix X", "",
        "", "", "", "1600m", ""⟩ :=
  ⟨by decide,
    c9_keyify_normalization
      ⟨"É. Test", "", "ENG", "01/01/2026", "Paris", "Prix X", "", "", "",
        "", "1600m", ""⟩
      ⟨"é.  test", "", "DP-P", "01/01/2026", "Paris", "Prix X", "", "", "",
        "", "1600m", ""⟩
      (by decide) (by decide) (by decide) (by decide) (by decide)⟩

/-- **C9 counterexample.**  The claim also asserts invariance under
apostrophe-like character variants, but `norm`'s replacement
`.replace(/[']/g, "'")` maps the ASCII apostrophe to itself and touches
nothing else: two records whose subjects differ only in U+2019 vs U+0027
get different keys. -/
theorem c9_counterexample :
    aposChar '\u2019' = '\u2019' ∧
    norm "d\u2019or" = "d\u2019or" ∧
    keyify ⟨"d'or", "", "ENG", "01/01/2026", "Paris", "Prix X", "", "", "",
        "", "1600m", ""⟩ ≠
      keyify ⟨"d\u2019or", "", "ENG", "01/01/2026", "Paris", "Prix X", "",
        "", "", "", "1600m", ""⟩ := by decide

end FGEng
